import Mathlib

/-!
Verification development for the QGIS point locator (`src/core/qgspointlocator.h`).

The repository snapshot contains only the header: the `Match` structure and its
member functions are given inline there and are embedded directly below.  The
bodies of `init`, `rebuildIndex`, the query functions and the change-notification
slots live in the missing `qgspointlocator.cpp`; those are modelled from the
specification (each such definition carries a doc comment starting with
`Modelled from the spec:`).

Conventions of the embedding:
* coordinates are exact rationals (`ℚ`) instead of IEEE doubles;
* every distance is represented by its *square*, which keeps all values in `ℚ`
  (the square root is strictly monotone on nonnegative reals, so comparisons,
  minimality and zero-tests of distances are faithfully represented);
* the layer pointer is `Option Nat` (`none` = null pointer);
* `QHash<QgsFeatureId, QgsGeometry*>` and the R-tree are modelled as
  association lists sorted by feature id (a canonical form of an unordered map);
* geometry-math primitives (point-in-ring test, segment/rectangle intersection)
  are out of scope per the spec and modelled as explicit computable stand-ins.
-/

/-- Planar point with exact rational coordinates (models `QgsPointXY`). -/
structure QgsPointXY where
  x : ℚ
  y : ℚ
deriving DecidableEq, Repr

/-- The value produced by the default `QgsPointXY` constructor. -/
def defaultPoint : QgsPointXY := ⟨0, 0⟩

/-- Squared euclidean distance between two points. -/
def sqDist (a b : QgsPointXY) : ℚ := (a.x - b.x) ^ 2 + (a.y - b.y) ^ 2

/-- Axis-aligned rectangle (models `QgsRectangle`). -/
structure QgsRectangle where
  xMinimum : ℚ
  yMinimum : ℚ
  xMaximum : ℚ
  yMaximum : ℚ
deriving DecidableEq, Repr

/-- Rectangle intersection test on closed rectangles. -/
def QgsRectangle.intersects (r s : QgsRectangle) : Bool :=
  decide (r.xMinimum ≤ s.xMaximum) && decide (s.xMinimum ≤ r.xMaximum) &&
  decide (r.yMinimum ≤ s.yMaximum) && decide (s.yMinimum ≤ r.yMaximum)

/-- Square of side `2 * tolerance` centred at a point (the `edgesInRect`
overload builds its search rectangle this way). -/
def rectAround (p : QgsPointXY) (tolerance : ℚ) : QgsRectangle :=
  ⟨p.x - tolerance, p.y - tolerance, p.x + tolerance, p.y + tolerance⟩

namespace QgsPointLocator

/-- The `QgsPointLocator::Type` enum of a snap result (`Invalid`, `Vertex`,
`Edge`, `Area`; the `All` mask is a filter value, not a result kind). -/
inductive LocatorType
  | invalid
  | vertex
  | edge
  | area
deriving DecidableEq, Repr

/-- The `QgsPointLocator::Match` structure.  Field defaults mirror the
member initializers of the header (`mType = Invalid`, `mDist = 0`, default
point, null layer, `mFid = 0`, `mVertexIndex = 0`, default edge points).
`mDist` holds the squared distance in this embedding. -/
structure Match where
  mType : LocatorType := .invalid
  mDist : ℚ := 0
  mPoint : QgsPointXY := defaultPoint
  mLayer : Option Nat := none
  mFid : Int := 0
  mVertexIndex : Nat := 0
  mEdgePoints : QgsPointXY × QgsPointXY := (defaultPoint, defaultPoint)
deriving DecidableEq, Repr

/-- The non-default `Match` constructor of the header: stores the supplied
edge points when the `edgePoints` pointer is non-null, otherwise leaves the
default-constructed ones in place. -/
def Match.construct (t : LocatorType) (vl : Option Nat) (fid : Int) (dist : ℚ)
    (pt : QgsPointXY) (vertexIndex : Nat := 0)
    (edgePoints : Option (QgsPointXY × QgsPointXY) := none) : Match :=
  { mType := t
    mDist := dist
    mPoint := pt
    mLayer := vl
    mFid := fid
    mVertexIndex := vertexIndex
    mEdgePoints :=
      match edgePoints with
      | some ps => ps
      | none => (defaultPoint, defaultPoint) }

/-- Accessor `Match::type`. -/
def Match.type (m : Match) : LocatorType := m.mType

/-- Accessor `Match::isValid`. -/
def Match.isValid (m : Match) : Bool := decide (m.mType ≠ .invalid)

/-- Accessor `Match::hasVertex`. -/
def Match.hasVertex (m : Match) : Bool := decide (m.mType = .vertex)

/-- Accessor `Match::hasEdge`. -/
def Match.hasEdge (m : Match) : Bool := decide (m.mType = .edge)

/-- Accessor `Match::hasArea`. -/
def Match.hasArea (m : Match) : Bool := decide (m.mType = .area)

/-- Accessor `Match::distance` (squared in this embedding). -/
def Match.distance (m : Match) : ℚ := m.mDist

/-- Accessor `Match::point`. -/
def Match.point (m : Match) : QgsPointXY := m.mPoint

/-- Accessor `Match::vertexIndex`. -/
def Match.vertexIndex (m : Match) : Nat := m.mVertexIndex

/-- Accessor `Match::layer`. -/
def Match.layer (m : Match) : Option Nat := m.mLayer

/-- Accessor `Match::featureId`. -/
def Match.featureId (m : Match) : Int := m.mFid

/-- Member function `Match::edgePoints`: unconditionally copies the two stored
edge endpoints into the out-parameters (here: returns the pair).  It performs
no validity check, so it is total. -/
def Match.edgePoints (m : Match) : QgsPointXY × QgsPointXY := m.mEdgePoints

/-- A `Match` object as it exists in memory: its field values together with its
address.  Distinct live C++ objects have distinct addresses. -/
structure MatchObj where
  val : Match
  addr : Nat
deriving DecidableEq, Repr

/-- Faithful embedding of the header's `Match::operator==`.  The first six
conjuncts compare field values.  The last conjunct of the C++ source is
`mEdgePoints == other.mEdgePoints` where `mEdgePoints` is the C array
`QgsPointXY mEdgePoints[2]`: both operands undergo array-to-pointer decay, so
this compares the *addresses* of the two member arrays, which coincide exactly
when the two objects are the same object.  The embedding therefore compares
the object addresses there. -/
def MatchObj.cppEq (a b : MatchObj) : Bool :=
  decide (a.val.mType = b.val.mType) &&
  decide (a.val.mDist = b.val.mDist) &&
  decide (a.val.mPoint = b.val.mPoint) &&
  decide (a.val.mLayer = b.val.mLayer) &&
  decide (a.val.mFid = b.val.mFid) &&
  decide (a.val.mVertexIndex = b.val.mVertexIndex) &&
  decide (a.addr = b.addr)

/-- Modelled from the spec: a cached geometry in working coordinates.  A
geometry is a list of parts (vertex sequences); `isPolygon` marks whether the
parts are rings of a polygonal feature (then each part contributes a closing
segment and the feature participates in containment tests). -/
structure Geometry where
  parts : List (List QgsPointXY)
  isPolygon : Bool
deriving DecidableEq, Repr

/-- All vertices of a geometry, in part order. -/
def Geometry.vertices (g : Geometry) : List QgsPointXY := g.parts.flatten

/-- The closing segment of a ring: from the last vertex back to the first,
present only when the part has at least two vertices. -/
def closingEdge (vs : List QgsPointXY) : List (QgsPointXY × QgsPointXY) :=
  match vs, vs.getLast? with
  | v :: _ :: _, some l => [(l, v)]
  | _, _ => []

/-- Segments between consecutive vertices of one part, including the closing
segment when the part is a ring. -/
def partEdges (isRing : Bool) (vs : List QgsPointXY) : List (QgsPointXY × QgsPointXY) :=
  vs.zip vs.tail ++ (if isRing then closingEdge vs else [])

/-- All edges of a geometry: consecutive-vertex segments of every part,
including the closing segment of polygon rings. -/
def Geometry.edges (g : Geometry) : List (QgsPointXY × QgsPointXY) :=
  g.parts.flatMap (partEdges g.isPolygon)

/-- Modelled from the spec: the point-in-ring geometry-math primitive (out of
scope per the spec).  One step of the even-odd crossing test: does the edge
`(a, b)` cross the upward vertical ray from `p`. -/
def crossesRay (p a b : QgsPointXY) : Bool :=
  (decide (a.y ≤ p.y) != decide (b.y ≤ p.y)) &&
  decide (p.x < a.x + (p.y - a.y) * (b.x - a.x) / (b.y - a.y))

/-- Even-odd containment test of a point in one ring. -/
def pointInRing (p : QgsPointXY) (vs : List QgsPointXY) : Bool :=
  (partEdges true vs).foldl (fun acc e => acc != crossesRay p e.1 e.2) false

/-- Modelled from the spec: exact containment test of a point in a polygonal
geometry (even-odd rule across all rings, so holes toggle containment). -/
def Geometry.containsPoint (g : Geometry) (p : QgsPointXY) : Bool :=
  g.parts.foldl (fun acc vs => acc != pointInRing p vs) false

/-- Bounding box of a geometry (degenerate box at the origin for an empty
geometry, which never matters because such a feature has no vertices). -/
def Geometry.bbox (g : Geometry) : QgsRectangle :=
  match g.vertices with
  | [] => ⟨0, 0, 0, 0⟩
  | v :: vs =>
    vs.foldl
      (fun r w => ⟨min r.xMinimum w.x, min r.yMinimum w.y, max r.xMaximum w.x, max r.yMaximum w.y⟩)
      ⟨v.x, v.y, v.x, v.y⟩

/-- Does a geometry fall within the (optional) extent restriction?  Per the
builder contract this is a bounding-box intersection test; a missing extent
admits every feature. -/
def inExtent (extent : Option QgsRectangle) (g : Geometry) : Bool :=
  match extent with
  | none => true
  | some r => g.bbox.intersects r

/-- The point of the segment `[a, b]` at parameter `t`. -/
def segParam (a b : QgsPointXY) (t : ℚ) : QgsPointXY :=
  ⟨a.x + t * (b.x - a.x), a.y + t * (b.y - a.y)⟩

/-- Dot product of `p - a` with `b - a`: the numerator of the perpendicular
foot parameter of `p` on the segment `[a, b]`. -/
def segDot (p a b : QgsPointXY) : ℚ :=
  (p.x - a.x) * (b.x - a.x) + (p.y - a.y) * (b.y - a.y)

/-- The point of the segment `[a, b]` closest to `p`.  For a nondegenerate
segment this is the perpendicular foot clamped to the segment; for a
degenerate segment it is the (unique) endpoint. -/
def closestPointOnSegment (p a b : QgsPointXY) : QgsPointXY :=
  if sqDist a b = 0 then a
  else segParam a b (max 0 (min 1 (segDot p a b / sqDist a b)))

/-- Membership of a point on a closed segment, via the parametrisation. -/
def OnSegment (q a b : QgsPointXY) : Prop :=
  ∃ t : ℚ, 0 ≤ t ∧ t ≤ 1 ∧ q = segParam a b t

/-- Modelled from the spec: the segment-rectangle intersection geometry-math
primitive of the range query (out of scope per the spec), realised as a
bounding-box overlap test. -/
def segIntersectsRect (e : QgsPointXY × QgsPointXY) (r : QgsRectangle) : Bool :=
  QgsRectangle.intersects
    ⟨min e.1.x e.2.x, min e.1.y e.2.y, max e.1.x e.2.x, max e.1.y e.2.y⟩ r

/-- A feature id (`QgsFeatureId` is a 64-bit signed integer). -/
abbrev FeatureId := Int

/-- The geometry cache: `QHash<QgsFeatureId, QgsGeometry*>` modelled as an
association list kept sorted by feature id (canonical form of the hash). -/
abbrev GeomCache := List (FeatureId × Geometry)

/-- Modelled from the spec: the whole locator state.  `mGeoms` is the Geometry
Cache, `mRTree` the Bounding-Box Index (feature id with its registered box),
`hasIndex` the spec's `LocatorState.hasIndex`, `mIsEmptyLayer` the
`isEmptyDataset` flag, `mExtent` the optional extent restriction and `mLayer`
the associated layer (a pointer, modelled as an optional id). -/
structure Locator where
  hasIndex : Bool := false
  mIsEmptyLayer : Bool := false
  mGeoms : GeomCache := []
  mRTree : List (FeatureId × QgsRectangle) := []
  mExtent : Option QgsRectangle := none
  mLayer : Option Nat := none
deriving Repr

/-- Member function `cachedGeometryCount`: the number of cached geometries. -/
def cachedGeometryCount (loc : Locator) : Nat := loc.mGeoms.length

/-- The vertex candidate match a feature contributes for one of its vertices
(`iv` is the vertex with its index). -/
def vertexMatch (vl : Option Nat) (fid : FeatureId) (p : QgsPointXY)
    (iv : Nat × QgsPointXY) : Match :=
  { mType := .vertex
    mDist := sqDist p iv.2
    mPoint := iv.2
    mLayer := vl
    mFid := fid
    mVertexIndex := iv.1 }

/-- The edge candidate match a feature contributes for one of its edges
(`ie` is the edge with its index): the match point is the closest point of the
segment, the distance (squared) is measured to that point, and the edge
endpoints are recorded in traversal order. -/
def edgeMatch (vl : Option Nat) (fid : FeatureId) (p : QgsPointXY)
    (ie : Nat × (QgsPointXY × QgsPointXY)) : Match :=
  { mType := .edge
    mDist := sqDist p (closestPointOnSegment p ie.2.1 ie.2.2)
    mPoint := closestPointOnSegment p ie.2.1 ie.2.2
    mLayer := vl
    mFid := fid
    mVertexIndex := ie.1
    mEdgePoints := ie.2 }

/-- The area match for a containing polygon: distance 0, the match point is
the query point itself. -/
def areaMatch (vl : Option Nat) (fid : FeatureId) (p : QgsPointXY) : Match :=
  { mType := .area
    mDist := 0
    mPoint := p
    mLayer := vl
    mFid := fid }

/-- All vertex candidates over the cached geometries, in cache order. -/
def vertexCandidates (vl : Option Nat) (geoms : GeomCache) (p : QgsPointXY) : List Match :=
  geoms.flatMap fun fg => fg.2.vertices.enum.map (vertexMatch vl fg.1 p)

/-- All edge candidates over the cached geometries, in cache order. -/
def edgeCandidates (vl : Option Nat) (geoms : GeomCache) (p : QgsPointXY) : List Match :=
  geoms.flatMap fun fg => fg.2.edges.enum.map (edgeMatch vl fg.1 p)

/-- Acceptance test of a candidate: within tolerance (squared distances
compared against the squared tolerance) and accepted by the caller's filter. -/
def withinTol (tolerance : ℚ) (filt : Match → Bool) (m : Match) : Bool :=
  decide (m.mDist ≤ tolerance ^ 2) && filt m

/-- The running-best selection of the candidate refinement: keeps the first
candidate in traversal order among those of minimal distance. -/
def pickBest : List Match → Option Match
  | [] => none
  | m :: ms =>
    match pickBest ms with
    | none => some m
    | some b => if b.mDist < m.mDist then some b else some m

/-- Modelled from the spec: `nearestVertex` enumerates all vertices of all
indexed features, keeps the candidates within tolerance that the filter
accepts, and returns the closest one (first-visited wins ties); an invalid
match when none qualifies. -/
def nearestVertex (loc : Locator) (p : QgsPointXY) (tolerance : ℚ)
    (filt : Match → Bool) : Match :=
  (pickBest ((vertexCandidates loc.mLayer loc.mGeoms p).filter
    (withinTol tolerance filt))).getD {}

/-- Modelled from the spec: `nearestEdge`, same refinement over edge
candidates. -/
def nearestEdge (loc : Locator) (p : QgsPointXY) (tolerance : ℚ)
    (filt : Match → Bool) : Match :=
  (pickBest ((edgeCandidates loc.mLayer loc.mGeoms p).filter
    (withinTol tolerance filt))).getD {}

/-- Modelled from the spec: `pointInPolygon` returns one area match per
polygonal feature containing the query point (no tolerance, no filter). -/
def pointInPolygon (loc : Locator) (p : QgsPointXY) : List Match :=
  loc.mGeoms.filterMap fun fg =>
    if fg.2.isPolygon && fg.2.containsPoint p then some (areaMatch loc.mLayer fg.1 p)
    else none

/-- Modelled from the spec: `nearestArea` first performs `pointInPolygon` and
returns its first result; otherwise, when the tolerance is nonzero, it falls
back to `nearestEdge` with the same tolerance and filter; otherwise an invalid
match. -/
def nearestArea (loc : Locator) (p : QgsPointXY) (tolerance : ℚ)
    (filt : Match → Bool) : Match :=
  match pointInPolygon loc p with
  | m :: _ => m
  | [] => if tolerance = 0 then {} else nearestEdge loc p tolerance filt

/-- The match recorded by the range query for one intersecting edge: an
edge-kind match whose distance is not used for ranking (0 in the model). -/
def rectEdgeMatch (vl : Option Nat) (fid : FeatureId)
    (ie : Nat × (QgsPointXY × QgsPointXY)) : Match :=
  { mType := .edge
    mDist := 0
    mPoint := ie.2.1
    mLayer := vl
    mFid := fid
    mVertexIndex := ie.1
    mEdgePoints := ie.2 }

/-- Modelled from the spec: `edgesInRect` collects an edge match for every
edge of every indexed feature that intersects the rectangle, subject to the
filter. -/
def edgesInRect (loc : Locator) (r : QgsRectangle) (filt : Match → Bool) : List Match :=
  loc.mGeoms.flatMap fun fg =>
    fg.2.edges.enum.filterMap fun ie =>
      if segIntersectsRect ie.2 r && filt (rectEdgeMatch loc.mLayer fg.1 ie) then
        some (rectEdgeMatch loc.mLayer fg.1 ie)
      else none

/-- The `edgesInRect` overload taking a centre point and tolerance. -/
def edgesInRectTol (loc : Locator) (p : QgsPointXY) (tolerance : ℚ)
    (filt : Match → Bool) : List Match :=
  edgesInRect loc (rectAround p tolerance) filt

/-- The dataset (the vector layer's feature store), modelled like the caches
as an association list from feature id to current geometry, sorted by id. -/
abbrev Dataset := List (FeatureId × Geometry)

/-- Insertion (or replacement) of a key into a sorted association list,
keeping it sorted. -/
def upsert (fid : FeatureId) (a : α) : List (FeatureId × α) → List (FeatureId × α)
  | [] => [(fid, a)]
  | (f, b) :: rest =>
    if fid < f then (fid, a) :: (f, b) :: rest
    else if fid = f then (fid, a) :: rest
    else (f, b) :: upsert fid a rest

/-- Removal of a key from an association list. -/
def eraseKey (fid : FeatureId) : List (FeatureId × α) → List (FeatureId × α)
  | [] => []
  | (f, b) :: rest =>
    if f = fid then eraseKey fid rest else (f, b) :: eraseKey fid rest

/-- Lookup of a key in an association list. -/
def lookupKey (fid : FeatureId) : List (FeatureId × α) → Option α
  | [] => none
  | (f, b) :: rest => if f = fid then some b else lookupKey fid rest

/-- Keys strictly increasing: the canonical sorted form of an association
list, implying no duplicate keys. -/
def sortedKeys (l : List (FeatureId × α)) : Prop :=
  l.Pairwise fun fg fg' => fg.1 < fg'.1

/-- The dataset features the builder indexes: those intersecting the
configured extent, the whole dataset when no extent is set. -/
def relevantFeatures (layer : Dataset) (extent : Option QgsRectangle) : Dataset :=
  layer.filter fun fg => inExtent extent fg.2

/-- Modelled from the spec: `rebuildIndex` iterates the dataset's features
restricted to the extent.  Zero matching features: the empty-layer flag is
set, no index is built, and this counts as success.  If the number of
features processed exceeds the cap (the cap `-1` meaning unlimited), the
build aborts, discards all partial state and reports failure.  Otherwise the
Geometry Cache receives every relevant feature and the Bounding-Box Index its
bounding box, and the build succeeds. -/
def rebuildIndex (layer : Dataset) (loc : Locator) (maxFeaturesToIndex : Int) :
    Locator × Bool :=
  if (relevantFeatures layer loc.mExtent).isEmpty then
    ({ loc with hasIndex := false, mIsEmptyLayer := true, mGeoms := [], mRTree := [] }, true)
  else if maxFeaturesToIndex ≠ -1 ∧
      maxFeaturesToIndex < ((relevantFeatures layer loc.mExtent).length : Int) then
    ({ loc with hasIndex := false, mIsEmptyLayer := false, mGeoms := [], mRTree := [] }, false)
  else
    ({ loc with
        hasIndex := true
        mIsEmptyLayer := false
        mGeoms := relevantFeatures layer loc.mExtent
        mRTree := (relevantFeatures layer loc.mExtent).map fun fg => (fg.1, fg.2.bbox) }, true)

/-- Modelled from the spec: `init` does nothing (and succeeds) when the index
already exists, otherwise it builds it. -/
def init (layer : Dataset) (loc : Locator) (maxFeaturesToIndex : Int) :
    Locator × Bool :=
  if loc.hasIndex then (loc, true) else rebuildIndex layer loc maxFeaturesToIndex

/-- Modelled from the spec: `destroyIndex` discards both structures and
resets the instance to the uninitialized state. -/
def destroyIndex (loc : Locator) : Locator :=
  { loc with hasIndex := false, mIsEmptyLayer := false, mGeoms := [], mRTree := [] }

/-- Modelled from the spec: the `featureAdded` notification.  On a built
index the new feature's geometry is fetched from the dataset and, when it
falls within the extent, inserted into both structures; outside the extent it
is ignored.  Without an index, a previously-empty layer triggers a fresh
build; otherwise nothing happens. -/
def onFeatureAdded (layer : Dataset) (loc : Locator) (fid : FeatureId) : Locator :=
  if loc.hasIndex then
    match lookupKey fid layer with
    | none => loc
    | some g =>
      if inExtent loc.mExtent g then
        { loc with
            mGeoms := upsert fid g loc.mGeoms
            mRTree := upsert fid g.bbox loc.mRTree }
      else loc
  else if loc.mIsEmptyLayer then (rebuildIndex layer loc (-1)).1
  else loc

/-- Modelled from the spec: the `featureDeleted` notification.  On a built
index the feature's cached geometry and bounding-box registration are
removed; when the last indexed feature goes away the empty-layer flag is set.
Without an index nothing happens. -/
def onFeatureDeleted (loc : Locator) (fid : FeatureId) : Locator :=
  if loc.hasIndex then
    { loc with
        mGeoms := eraseKey fid loc.mGeoms
        mRTree := eraseKey fid loc.mRTree
        mIsEmptyLayer :=
          if (eraseKey fid loc.mGeoms).isEmpty then true else loc.mIsEmptyLayer }
  else loc

/-- Modelled from the spec: the `geometryChanged` notification.  On a built
index the old registration is removed and the new geometry (fetched from the
dataset) is reinserted when it still falls within the extent; a feature whose
new geometry leaves the extent is removed entirely.  Without an index nothing
happens. -/
def onGeometryChanged (layer : Dataset) (loc : Locator) (fid : FeatureId) : Locator :=
  if loc.hasIndex then
    match lookupKey fid layer with
    | none =>
      { loc with
          mGeoms := eraseKey fid loc.mGeoms
          mRTree := eraseKey fid loc.mRTree }
    | some g =>
      if inExtent loc.mExtent g then
        { loc with
            mGeoms := upsert fid g (eraseKey fid loc.mGeoms)
            mRTree := upsert fid g.bbox (eraseKey fid loc.mRTree) }
      else
        { loc with
            mGeoms := eraseKey fid loc.mGeoms
            mRTree := eraseKey fid loc.mRTree }
  else loc

/-- The consistency invariant of the spec: with an index, the feature ids of
the Geometry Cache coincide with those registered in the Bounding-Box Index
and with the dataset features intersecting the extent (the whole dataset when
unset); without an index both structures are empty. -/
def consistent (layer : Dataset) (loc : Locator) : Prop :=
  if loc.hasIndex then
    (∀ fid : FeatureId,
      (∃ g, (fid, g) ∈ loc.mGeoms) ↔ (∃ g, (fid, g) ∈ relevantFeatures layer loc.mExtent)) ∧
    (∀ fid : FeatureId,
      (∃ r, (fid, r) ∈ loc.mRTree) ↔ (∃ g, (fid, g) ∈ loc.mGeoms))
  else loc.mGeoms = [] ∧ loc.mRTree = []

/-- Demo data: the one-line-feature dataset of the spec's concrete scenario,
a single line with vertices `(0,0)` and `(10,0)`. -/
def demoLine : Geometry := ⟨[[⟨0, 0⟩, ⟨10, 0⟩]], false⟩

/-- Demo data: a square polygon with corners `(0,0)`, `(4,0)`, `(4,4)`,
`(0,4)`. -/
def demoSquare : Geometry := ⟨[[⟨0, 0⟩, ⟨4, 0⟩, ⟨4, 4⟩, ⟨0, 4⟩]], true⟩

/-- Demo data: the dataset holding the single line feature with id 1. -/
def demoLayer : Dataset := [(1, demoLine)]

/-- Demo data: a built locator over `demoLayer`. -/
def demoLoc : Locator :=
  { hasIndex := true
    mIsEmptyLayer := false
    mGeoms := [(1, demoLine)]
    mRTree := [(1, demoLine.bbox)]
    mExtent := none
    mLayer := some 1 }

/-- Demo data: a built locator over a single square-polygon feature with
id 7. -/
def demoPolyLoc : Locator :=
  { hasIndex := true
    mIsEmptyLayer := false
    mGeoms := [(7, demoSquare)]
    mRTree := [(7, demoSquare.bbox)]
    mExtent := none
    mLayer := some 2 }

/-- Demo data: a ten-feature dataset (ids 1 to 10, each the demo line), the
capacity scenario of the spec. -/
def demoTenLayer : Dataset :=
  [(1, demoLine), (2, demoLine), (3, demoLine), (4, demoLine), (5, demoLine),
   (6, demoLine), (7, demoLine), (8, demoLine), (9, demoLine), (10, demoLine)]

theorem pickBest_cons_none {ms : List Match} (m : Match) (h : pickBest ms = none) :
    pickBest (m :: ms) = some m := by
  show (match pickBest ms with
    | none => some m
    | some b => if b.mDist < m.mDist then some b else some m) = some m
  rw [h]

theorem pickBest_cons_some {ms : List Match} (m : Match) {b' : Match}
    (h : pickBest ms = some b') :
    pickBest (m :: ms) = if b'.mDist < m.mDist then some b' else some m := by
  show (match pickBest ms with
    | none => some m
    | some b => if b.mDist < m.mDist then some b else some m) =
      if b'.mDist < m.mDist then some b' else some m
  rw [h]

theorem pickBest_eq_none {ms : List Match} : pickBest ms = none ↔ ms = [] := by
  cases ms with
  | nil => simp [pickBest]
  | cons m ms =>
    cases hp : pickBest ms with
    | none => rw [pickBest_cons_none m hp]; simp
    | some b => rw [pickBest_cons_some m hp]; split <;> simp

theorem pickBest_mem :
    ∀ {ms : List Match} {b : Match}, pickBest ms = some b → b ∈ ms := by
  intro ms
  induction ms with
  | nil => intro b h; simp [pickBest] at h
  | cons m ms ih =>
    intro b h
    cases hp : pickBest ms with
    | none =>
      rw [pickBest_cons_none m hp] at h
      exact (Option.some.inj h) ▸ List.mem_cons_self m ms
    | some b' =>
      rw [pickBest_cons_some m hp] at h
      by_cases hlt : b'.mDist < m.mDist
      · rw [if_pos hlt] at h
        have hb := Option.some.inj h
        subst hb
        exact List.mem_cons_of_mem _ (ih hp)
      · rw [if_neg hlt] at h
        exact (Option.some.inj h) ▸ List.mem_cons_self m ms

theorem pickBest_min :
    ∀ {ms : List Match} {b : Match}, pickBest ms = some b →
      ∀ c ∈ ms, b.mDist ≤ c.mDist := by
  intro ms
  induction ms with
  | nil => intro b h; simp [pickBest] at h
  | cons m ms ih =>
    intro b h
    cases hp : pickBest ms with
    | none =>
      rw [pickBest_cons_none m hp] at h
      have hms : ms = [] := pickBest_eq_none.mp hp
      subst hms
      intro c hc
      have hcm : c = m := by simpa using hc
      subst hcm
      exact (Option.some.inj h) ▸ le_refl _
    | some b' =>
      rw [pickBest_cons_some m hp] at h
      intro c hc
      by_cases hlt : b'.mDist < m.mDist
      · rw [if_pos hlt] at h
        have hb := Option.some.inj h
        subst hb
        rcases List.mem_cons.mp hc with rfl | hc
        · exact le_of_lt hlt
        · exact ih hp c hc
      · rw [if_neg hlt] at h
        have hb := Option.some.inj h
        subst hb
        rcases List.mem_cons.mp hc with rfl | hc
        · exact le_refl _
        · exact le_trans (le_of_not_lt hlt) (ih hp c hc)

theorem mem_vertexCandidates {vl : Option Nat} {geoms : GeomCache} {p : QgsPointXY}
    {m : Match} :
    m ∈ vertexCandidates vl geoms p ↔
      ∃ fg ∈ geoms, ∃ iv ∈ fg.2.vertices.enum, m = vertexMatch vl fg.1 p iv := by
  simp only [vertexCandidates, List.mem_flatMap, List.mem_map]
  constructor
  · rintro ⟨fg, hfg, iv, hiv, rfl⟩
    exact ⟨fg, hfg, iv, hiv, rfl⟩
  · rintro ⟨fg, hfg, iv, hiv, rfl⟩
    exact ⟨fg, hfg, iv, hiv, rfl⟩

theorem mem_edgeCandidates {vl : Option Nat} {geoms : GeomCache} {p : QgsPointXY}
    {m : Match} :
    m ∈ edgeCandidates vl geoms p ↔
      ∃ fg ∈ geoms, ∃ ie ∈ fg.2.edges.enum, m = edgeMatch vl fg.1 p ie := by
  simp only [edgeCandidates, List.mem_flatMap, List.mem_map]
  constructor
  · rintro ⟨fg, hfg, ie, hie, rfl⟩
    exact ⟨fg, hfg, ie, hie, rfl⟩
  · rintro ⟨fg, hfg, ie, hie, rfl⟩
    exact ⟨fg, hfg, ie, hie, rfl⟩

theorem withinTol_iff {tolerance : ℚ} {filt : Match → Bool} {m : Match} :
    withinTol tolerance filt m = true ↔ m.mDist ≤ tolerance ^ 2 ∧ filt m = true := by
  simp [withinTol]

theorem mem_vertexAccepted {loc : Locator} {p : QgsPointXY} {tolerance : ℚ}
    {filt : Match → Bool} {m : Match} :
    m ∈ (vertexCandidates loc.mLayer loc.mGeoms p).filter (withinTol tolerance filt) ↔
      (∃ fg ∈ loc.mGeoms, ∃ iv ∈ fg.2.vertices.enum, m = vertexMatch loc.mLayer fg.1 p iv) ∧
      m.mDist ≤ tolerance ^ 2 ∧ filt m = true := by
  rw [List.mem_filter, mem_vertexCandidates, withinTol_iff]

theorem vertexMatch_mDist (vl : Option Nat) (fid : FeatureId) (p : QgsPointXY)
    (iv : Nat × QgsPointXY) : (vertexMatch vl fid p iv).mDist = sqDist p iv.2 := rfl

/-- C1: `nearestVertex(p, t)` returns an invalid match exactly when no vertex
of any indexed feature lies within tolerance of `p` or every such candidate is
rejected by the filter; otherwise it returns an accepted in-tolerance vertex
candidate of an indexed feature that is globally closest among all of them
(distances are compared squared). -/
theorem nearestVertex_invalid_iff_closest (loc : Locator) (p : QgsPointXY)
    (tolerance : ℚ) (filt : Match → Bool) :
    ((nearestVertex loc p tolerance filt).mType = .invalid ↔
      ∀ fg ∈ loc.mGeoms, ∀ iv ∈ fg.2.vertices.enum,
        sqDist p iv.2 ≤ tolerance ^ 2 →
          filt (vertexMatch loc.mLayer fg.1 p iv) = false) ∧
    ((nearestVertex loc p tolerance filt).mType ≠ .invalid →
      ((∃ fg ∈ loc.mGeoms, ∃ iv ∈ fg.2.vertices.enum,
          nearestVertex loc p tolerance filt = vertexMatch loc.mLayer fg.1 p iv ∧
          sqDist p iv.2 ≤ tolerance ^ 2 ∧
          filt (vertexMatch loc.mLayer fg.1 p iv) = true) ∧
        ∀ fg ∈ loc.mGeoms, ∀ iv ∈ fg.2.vertices.enum,
          sqDist p iv.2 ≤ tolerance ^ 2 →
            filt (vertexMatch loc.mLayer fg.1 p iv) = true →
              (nearestVertex loc p tolerance filt).mDist ≤ sqDist p iv.2)) := by
  cases hp : pickBest ((vertexCandidates loc.mLayer loc.mGeoms p).filter
      (withinTol tolerance filt)) with
  | none =>
    have hnv : nearestVertex loc p tolerance filt = {} := by
      rw [nearestVertex, hp]; rfl
    have hnil := pickBest_eq_none.mp hp
    constructor
    · rw [hnv]
      simp only [true_iff, show ({} : Match).mType = LocatorType.invalid from rfl]
      intro fg hfg iv hiv hd
      by_contra hf
      have hf' : filt (vertexMatch loc.mLayer fg.1 p iv) = true := by
        cases hb : filt (vertexMatch loc.mLayer fg.1 p iv) with
        | false => exact absurd hb hf
        | true => rfl
      have hmem : vertexMatch loc.mLayer fg.1 p iv ∈
          (vertexCandidates loc.mLayer loc.mGeoms p).filter (withinTol tolerance filt) :=
        mem_vertexAccepted.mpr
          ⟨⟨fg, hfg, iv, hiv, rfl⟩, by rw [vertexMatch_mDist]; exact hd, hf'⟩
      rw [hnil] at hmem
      exact List.not_mem_nil _ hmem
    · intro habs
      rw [hnv] at habs
      exact absurd rfl habs
  | some b =>
    have hnv : nearestVertex loc p tolerance filt = b := by
      rw [nearestVertex, hp]; rfl
    have hbmem := pickBest_mem hp
    obtain ⟨⟨fg, hfg, iv, hiv, hbeq⟩, hbd, hbf⟩ := mem_vertexAccepted.mp hbmem
    have hbtype : b.mType = .vertex := by rw [hbeq]; rfl
    constructor
    · rw [hnv, hbtype]
      constructor
      · intro h; exact absurd h (by simp)
      · intro hall
        have := hall fg hfg iv hiv (by rw [← vertexMatch_mDist loc.mLayer fg.1 p iv, ← hbeq]; exact hbd)
        rw [← hbeq] at this
        rw [this] at hbf
        exact absurd hbf (by simp)
    · intro _
      constructor
      · exact ⟨fg, hfg, iv, hiv, by rw [hnv]; exact hbeq, by
          rw [← vertexMatch_mDist loc.mLayer fg.1 p iv, ← hbeq]; exact hbd, by
          rw [← hbeq]; exact hbf⟩
      · intro fg' hfg' iv' hiv' hd' hf'
        have hmem' : vertexMatch loc.mLayer fg'.1 p iv' ∈
            (vertexCandidates loc.mLayer loc.mGeoms p).filter (withinTol tolerance filt) :=
          mem_vertexAccepted.mpr
            ⟨⟨fg', hfg', iv', hiv', rfl⟩, by rw [vertexMatch_mDist]; exact hd', hf'⟩
        have := pickBest_min hp _ hmem'
        rw [vertexMatch_mDist] at this
        rw [hnv]
        exact this

theorem sqDist_segParam (p a b : QgsPointXY) (s : ℚ) :
    sqDist p (segParam a b s) =
      sqDist a b * s ^ 2 - 2 * segDot p a b * s + sqDist p a := by
  simp only [sqDist, segParam, segDot]
  ring

theorem closestPointOnSegment_mem (p a b : QgsPointXY) :
    OnSegment (closestPointOnSegment p a b) a b := by
  rw [closestPointOnSegment]
  by_cases hd : sqDist a b = 0
  · rw [if_pos hd]
    exact ⟨0, le_refl 0, zero_le_one, by simp [segParam]⟩
  · rw [if_neg hd]
    refine ⟨max 0 (min 1 (segDot p a b / sqDist a b)), le_max_left _ _, ?_, rfl⟩
    exact max_le zero_le_one (min_le_left _ _)

theorem sqDist_eq_zero_iff {a b : QgsPointXY} : sqDist a b = 0 ↔ a = b := by
  constructor
  · intro h
    have hx : (a.x - b.x) ^ 2 = 0 := by
      have h1 := sq_nonneg (a.x - b.x)
      have h2 := sq_nonneg (a.y - b.y)
      have : (a.x - b.x) ^ 2 + (a.y - b.y) ^ 2 = 0 := h
      linarith
    have hy : (a.y - b.y) ^ 2 = 0 := by
      have h1 := sq_nonneg (a.x - b.x)
      have : (a.x - b.x) ^ 2 + (a.y - b.y) ^ 2 = 0 := h
      linarith
    have hx' : a.x = b.x := by
      have := pow_eq_zero_iff (n := 2) (by norm_num) |>.mp hx
      linarith
    have hy' : a.y = b.y := by
      have := pow_eq_zero_iff (n := 2) (by norm_num) |>.mp hy
      linarith
    cases a; cases b; simp_all
  · rintro rfl
    simp [sqDist]

theorem clamp_min_quadratic {d : ℚ} (e : ℚ) (hd : 0 < d) (t : ℚ)
    (ht0 : 0 ≤ t) (ht1 : t ≤ 1) :
    d * (max 0 (min 1 (e / d))) ^ 2 - 2 * e * (max 0 (min 1 (e / d))) ≤
      d * t ^ 2 - 2 * e * t := by
  have hdne : d ≠ 0 := ne_of_gt hd
  rcases le_or_lt (e / d) 0 with h0 | h0
  · rw [min_eq_right (le_trans h0 zero_le_one), max_eq_left h0]
    have hed : e / d * d = e := div_mul_cancel₀ e hdne
    have he0 : e ≤ 0 := by
      have := mul_nonpos_of_nonpos_of_nonneg h0 hd.le
      linarith [hed]
    nlinarith [mul_nonneg hd.le (sq_nonneg t), mul_nonneg (neg_nonneg.mpr he0) ht0]
  · rcases le_or_lt 1 (e / d) with h1 | h1
    · rw [min_eq_left h1, max_eq_right zero_le_one]
      have hde : d ≤ e := (one_le_div hd).mp h1
      have key : 0 ≤ (1 - t) * (2 * e - d * (t + 1)) := by
        apply mul_nonneg (by linarith)
        nlinarith
      nlinarith [key]
    · rw [min_eq_right h1.le, max_eq_right h0.le]
      have lhs_eq : d * (e / d) ^ 2 - 2 * e * (e / d) = -(e ^ 2 / d) := by
        field_simp
        ring
      have rhs_aux : (d * t - e) ^ 2 / d = d * t ^ 2 - 2 * e * t + e ^ 2 / d := by
        field_simp
        ring
      have hnn : 0 ≤ (d * t - e) ^ 2 / d := div_nonneg (sq_nonneg _) hd.le
      rw [rhs_aux] at hnn
      linarith [hnn, lhs_eq.le]

theorem closestPointOnSegment_min (p a b : QgsPointXY) :
    ∀ t : ℚ, 0 ≤ t → t ≤ 1 →
      sqDist p (closestPointOnSegment p a b) ≤ sqDist p (segParam a b t) := by
  intro t ht0 ht1
  rw [closestPointOnSegment]
  by_cases hd : sqDist a b = 0
  · rw [if_pos hd]
    have hab : a = b := sqDist_eq_zero_iff.mp hd
    subst hab
    have hseg : segParam a a t = a := by
      cases a
      simp [segParam]
    rw [hseg]
  · rw [if_neg hd]
    have hdpos : 0 < sqDist a b := by
      have hnn : (0 : ℚ) ≤ sqDist a b := by
        simp only [sqDist]
        positivity
      exact lt_of_le_of_ne hnn (Ne.symm hd)
    rw [sqDist_segParam, sqDist_segParam]
    linarith [clamp_min_quadratic (segDot p a b) hdpos t ht0 ht1]

theorem mem_edgeAccepted {loc : Locator} {p : QgsPointXY} {tolerance : ℚ}
    {filt : Match → Bool} {m : Match} :
    m ∈ (edgeCandidates loc.mLayer loc.mGeoms p).filter (withinTol tolerance filt) ↔
      (∃ fg ∈ loc.mGeoms, ∃ ie ∈ fg.2.edges.enum, m = edgeMatch loc.mLayer fg.1 p ie) ∧
      m.mDist ≤ tolerance ^ 2 ∧ filt m = true := by
  rw [List.mem_filter, mem_edgeCandidates, withinTol_iff]

/-- C4: a valid edge match returned by `nearestEdge` carries a match point
lying on the segment spanned by its recorded edge endpoints; the (squared)
distance from the query point to that match point equals the match's recorded
distance; and that distance is the point-to-segment distance: no point of the
segment is closer to the query point. -/
theorem nearestEdge_point_on_segment (loc : Locator) (p : QgsPointXY)
    (tolerance : ℚ) (filt : Match → Bool)
    (h : (nearestEdge loc p tolerance filt).mType = .edge) :
    OnSegment (nearestEdge loc p tolerance filt).mPoint
      (nearestEdge loc p tolerance filt).mEdgePoints.1
      (nearestEdge loc p tolerance filt).mEdgePoints.2 ∧
    sqDist p (nearestEdge loc p tolerance filt).mPoint =
      (nearestEdge loc p tolerance filt).mDist ∧
    ∀ q : QgsPointXY,
      OnSegment q (nearestEdge loc p tolerance filt).mEdgePoints.1
        (nearestEdge loc p tolerance filt).mEdgePoints.2 →
      (nearestEdge loc p tolerance filt).mDist ≤ sqDist p q := by
  cases hp : pickBest ((edgeCandidates loc.mLayer loc.mGeoms p).filter
      (withinTol tolerance filt)) with
  | none =>
    have hnv : nearestEdge loc p tolerance filt = {} := by
      rw [nearestEdge, hp]; rfl
    rw [hnv] at h
    exact absurd h (by simp [show ({} : Match).mType = LocatorType.invalid from rfl])
  | some b =>
    have hnv : nearestEdge loc p tolerance filt = b := by
      rw [nearestEdge, hp]; rfl
    have hbmem := pickBest_mem hp
    obtain ⟨⟨fg, hfg, ie, hie, hbeq⟩, _, _⟩ := mem_edgeAccepted.mp hbmem
    rw [hnv, hbeq]
    have hpt : (edgeMatch loc.mLayer fg.1 p ie).mPoint =
        closestPointOnSegment p ie.2.1 ie.2.2 := rfl
    have hep : (edgeMatch loc.mLayer fg.1 p ie).mEdgePoints = ie.2 := rfl
    have hds : (edgeMatch loc.mLayer fg.1 p ie).mDist =
        sqDist p (closestPointOnSegment p ie.2.1 ie.2.2) := rfl
    rw [hpt, hep, hds]
    refine ⟨closestPointOnSegment_mem p ie.2.1 ie.2.2, rfl, ?_⟩
    rintro q ⟨t, ht0, ht1, rfl⟩
    exact closestPointOnSegment_min p ie.2.1 ie.2.2 t ht0 ht1

theorem mem_pointInPolygon {loc : Locator} {p : QgsPointXY} {m : Match} :
    m ∈ pointInPolygon loc p ↔
      ∃ fg ∈ loc.mGeoms, fg.2.isPolygon = true ∧ fg.2.containsPoint p = true ∧
        m = areaMatch loc.mLayer fg.1 p := by
  rw [pointInPolygon, List.mem_filterMap]
  constructor
  · rintro ⟨fg, hfg, hsome⟩
    by_cases hc : fg.2.isPolygon && fg.2.containsPoint p
    · rw [if_pos hc] at hsome
      rcases Bool.and_eq_true_iff.mp hc with ⟨h1, h2⟩
      exact ⟨fg, hfg, h1, h2, (Option.some.inj hsome).symm⟩
    · rw [if_neg hc] at hsome
      exact absurd hsome (Option.noConfusion)
  · rintro ⟨fg, hfg, h1, h2, rfl⟩
    exact ⟨fg, hfg, by rw [if_pos (Bool.and_eq_true_iff.mpr ⟨h1, h2⟩)]⟩

theorem pointInPolygon_eq_nil {loc : Locator} {p : QgsPointXY}
    (h : ∀ fg ∈ loc.mGeoms, ¬(fg.2.isPolygon = true ∧ fg.2.containsPoint p = true)) :
    pointInPolygon loc p = [] := by
  cases hl : pointInPolygon loc p with
  | nil => rfl
  | cons m rest =>
    have hm : m ∈ pointInPolygon loc p := by rw [hl]; exact List.mem_cons_self _ _
    obtain ⟨fg, hfg, h1, h2, _⟩ := mem_pointInPolygon.mp hm
    exact absurd ⟨h1, h2⟩ (h fg hfg)

theorem nearestEdge_of_far {loc : Locator} {p : QgsPointXY} {tolerance : ℚ}
    {filt : Match → Bool}
    (h : ∀ fg ∈ loc.mGeoms, ∀ ie ∈ fg.2.edges.enum,
      ¬ sqDist p (closestPointOnSegment p ie.2.1 ie.2.2) ≤ tolerance ^ 2) :
    nearestEdge loc p tolerance filt = {} := by
  cases hp : pickBest ((edgeCandidates loc.mLayer loc.mGeoms p).filter
      (withinTol tolerance filt)) with
  | none => rw [nearestEdge, hp]; rfl
  | some b =>
    obtain ⟨⟨fg, hfg, ie, hie, hbeq⟩, hbd, _⟩ := mem_edgeAccepted.mp (pickBest_mem hp)
    have : b.mDist = sqDist p (closestPointOnSegment p ie.2.1 ie.2.2) := by
      rw [hbeq]; rfl
    rw [this] at hbd
    exact absurd hbd (h fg hfg ie hie)

/-- C3: `nearestArea` returns an area match with distance 0 whenever some
indexed polygonal feature contains the query point; when no indexed polygon
contains the point and the tolerance is nonzero it returns exactly the result
of `nearestEdge` with the same tolerance and filter; and when no polygon
contains the point and the tolerance is zero or no edge lies within the
tolerance, it returns an invalid match. -/
theorem nearestArea_cases (loc : Locator) (p : QgsPointXY) (tolerance : ℚ)
    (filt : Match → Bool) :
    ((∃ fg ∈ loc.mGeoms, fg.2.isPolygon = true ∧ fg.2.containsPoint p = true) →
      (nearestArea loc p tolerance filt).mType = .area ∧
      (nearestArea loc p tolerance filt).mDist = 0) ∧
    ((∀ fg ∈ loc.mGeoms, ¬(fg.2.isPolygon = true ∧ fg.2.containsPoint p = true)) →
      tolerance ≠ 0 →
      nearestArea loc p tolerance filt = nearestEdge loc p tolerance filt) ∧
    ((∀ fg ∈ loc.mGeoms, ¬(fg.2.isPolygon = true ∧ fg.2.containsPoint p = true)) →
      (tolerance = 0 ∨ ∀ fg ∈ loc.mGeoms, ∀ ie ∈ fg.2.edges.enum,
        ¬ sqDist p (closestPointOnSegment p ie.2.1 ie.2.2) ≤ tolerance ^ 2) →
      (nearestArea loc p tolerance filt).mType = .invalid) := by
  refine ⟨?_, ?_, ?_⟩
  · rintro ⟨fg, hfg, h1, h2⟩
    have hmem : areaMatch loc.mLayer fg.1 p ∈ pointInPolygon loc p :=
      mem_pointInPolygon.mpr ⟨fg, hfg, h1, h2, rfl⟩
    cases hl : pointInPolygon loc p with
    | nil => rw [hl] at hmem; exact absurd hmem (List.not_mem_nil _)
    | cons m rest =>
      have hna : nearestArea loc p tolerance filt = m := by rw [nearestArea, hl]
      have hm : m ∈ pointInPolygon loc p := by rw [hl]; exact List.mem_cons_self _ _
      obtain ⟨fg', _, _, _, hmeq⟩ := mem_pointInPolygon.mp hm
      rw [hna, hmeq]
      exact ⟨rfl, rfl⟩
  · intro hall htol
    rw [nearestArea, pointInPolygon_eq_nil hall, if_neg htol]
  · intro hall hcase
    rw [nearestArea, pointInPolygon_eq_nil hall]
    by_cases htol : tolerance = 0
    · rw [if_pos htol]
    · rw [if_neg htol]
      rcases hcase with hcase | hfar
      · exact absurd hcase htol
      · rw [nearestEdge_of_far hfar]

/-- C2: with no pre-existing index, `init` with a configured (nonnegative)
cap smaller than the number of features to index aborts: it returns false,
leaves `hasIndex` false and the geometry cache empty; and `init` reports
failure only in that capacity-exceeded situation. -/
theorem init_capacity (layer : Dataset) (loc : Locator) (cap : Int)
    (h : loc.hasIndex = false) :
    ((0 ≤ cap ∧ cap < ((relevantFeatures layer loc.mExtent).length : Int)) →
      (init layer loc cap).2 = false ∧
      (init layer loc cap).1.hasIndex = false ∧
      (init layer loc cap).1.mGeoms = [] ∧
      cachedGeometryCount (init layer loc cap).1 = 0) ∧
    ((init layer loc cap).2 = false →
      cap ≠ -1 ∧ cap < ((relevantFeatures layer loc.mExtent).length : Int)) := by
  have hinit : init layer loc cap = rebuildIndex layer loc cap := by
    rw [init, h]
    rfl
  rw [hinit, rebuildIndex]
  by_cases hempty : (relevantFeatures layer loc.mExtent).isEmpty
  · rw [if_pos hempty]
    have hlen : (relevantFeatures layer loc.mExtent).length = 0 :=
      List.isEmpty_iff_length_eq_zero.mp hempty
    constructor
    · rintro ⟨hc0, hclt⟩
      rw [hlen] at hclt
      exact absurd (lt_of_le_of_lt hc0 hclt) (by norm_num)
    · intro hfalse
      exact absurd hfalse (by simp)
  · rw [if_neg hempty]
    by_cases habort : cap ≠ -1 ∧ cap < ((relevantFeatures layer loc.mExtent).length : Int)
    · rw [if_pos habort]
      exact ⟨fun _ => ⟨rfl, rfl, rfl, rfl⟩, fun _ => habort⟩
    · rw [if_neg habort]
      constructor
      · rintro ⟨hc0, hclt⟩
        have hne : cap ≠ -1 := by
          intro hc
          rw [hc] at hc0
          norm_num at hc0
        exact absurd ⟨hne, hclt⟩ habort
      · intro hfalse
        exact absurd hfalse (by simp)

/-- C7: when the first `init` leaves an existing index, a second `init`
without intervening edits is a no-op: it returns the same locator state
unchanged together with success, and the first call also reported success. -/
theorem init_idempotent (layer : Dataset) (loc : Locator) (cap : Int)
    (h : (init layer loc cap).1.hasIndex = true) :
    init layer (init layer loc cap).1 cap = ((init layer loc cap).1, true) ∧
    (init layer loc cap).2 = true := by
  constructor
  · rw [init, h]
    rfl
  · by_cases hI : loc.hasIndex
    · rw [init, hI]
      rfl
    · have hinit : init layer loc cap = rebuildIndex layer loc cap := by
        rw [init]
        simp [hI]
      rw [hinit] at h ⊢
      rw [rebuildIndex] at h ⊢
      by_cases hempty : (relevantFeatures layer loc.mExtent).isEmpty
      · rw [if_pos hempty]
      · rw [if_neg hempty] at h ⊢
        by_cases habort : cap ≠ -1 ∧ cap < ((relevantFeatures layer loc.mExtent).length : Int)
        · rw [if_pos habort] at h
          exact absurd h (by simp)
        · rw [if_neg habort]

/-- C8 (evaluating the code at the failing input): two distinct
default-constructed `Match` objects, living at different addresses, have
identical field values and yet the header's `operator==` evaluates to false,
because its last conjunct compares the decayed `mEdgePoints` array pointers
rather than the endpoint values. -/
theorem match_operatorEq_compares_addresses :
    (⟨{}, 0⟩ : MatchObj).val = (⟨{}, 1⟩ : MatchObj).val ∧
    MatchObj.cppEq ⟨{}, 0⟩ ⟨{}, 1⟩ = false := by
  constructor
  · rfl
  · simp [MatchObj.cppEq]

/-- C9: the default-constructed `Match` is the canonical no-match value:
kind `Invalid` (hence `isValid` is false), distance 0, default point, null
layer, feature id 0, vertex index 0. -/
theorem default_match_canonical :
    ({} : Match).mType = .invalid ∧ ({} : Match).isValid = false ∧
    ({} : Match).mDist = 0 ∧ ({} : Match).mPoint = defaultPoint ∧
    ({} : Match).mLayer = none ∧ ({} : Match).mFid = 0 ∧
    ({} : Match).mVertexIndex = 0 := by
  refine ⟨rfl, ?_, rfl, rfl, rfl, rfl, rfl⟩
  rfl

/-- C10: `edgePoints` is total: on every match it simply yields the two
stored endpoints; a match constructed with a null `edgePoints` argument (and
likewise a default-constructed match) yields the two default-constructed
coordinates. -/
theorem edgePoints_total (t : LocatorType) (vl : Option Nat) (fid : Int)
    (dist : ℚ) (pt : QgsPointXY) (vi : Nat) :
    (∀ m : Match, m.edgePoints = m.mEdgePoints) ∧
    (Match.construct t vl fid dist pt vi none).edgePoints =
      (defaultPoint, defaultPoint) ∧
    (∀ p1 p2 : QgsPointXY,
      (Match.construct t vl fid dist pt vi (some (p1, p2))).edgePoints = (p1, p2)) ∧
    ({} : Match).edgePoints = (defaultPoint, defaultPoint) :=
  ⟨fun _ => rfl, rfl, fun _ _ => rfl, rfl⟩

theorem exists_mem_upsert {α : Type} {a fid : FeatureId} {g : α}
    {l : List (FeatureId × α)} :
    (∃ x, (a, x) ∈ upsert fid g l) ↔ a = fid ∨ ∃ x, (a, x) ∈ l := by
  induction l with
  | nil =>
    simp [upsert, Prod.mk.injEq]
  | cons hd tl ih =>
    obtain ⟨f, b⟩ := hd
    by_cases h1 : fid < f
    · rw [upsert, if_pos h1]
      constructor
      · rintro ⟨x, hx⟩
        rcases List.mem_cons.mp hx with heq | hx
        · exact Or.inl (congrArg Prod.fst heq)
        · exact Or.inr ⟨x, hx⟩
      · rintro (rfl | ⟨x, hx⟩)
        · exact ⟨g, List.mem_cons_self _ _⟩
        · exact ⟨x, List.mem_cons_of_mem _ hx⟩
    · by_cases h2 : fid = f
      · rw [upsert, if_neg h1, if_pos h2]
        constructor
        · rintro ⟨x, hx⟩
          rcases List.mem_cons.mp hx with heq | hx
          · exact Or.inl (congrArg Prod.fst heq)
          · exact Or.inr ⟨x, List.mem_cons_of_mem _ hx⟩
        · rintro (heq | ⟨x, hx⟩)
          · subst heq
            exact ⟨g, List.mem_cons_self _ _⟩
          · rcases List.mem_cons.mp hx with heq | hx
            · have haf : a = f := congrArg Prod.fst heq
              rw [haf, ← h2]
              exact ⟨g, List.mem_cons_self _ _⟩
            · exact ⟨x, List.mem_cons_of_mem _ hx⟩
      · rw [upsert, if_neg h1, if_neg h2]
        constructor
        · rintro ⟨x, hx⟩
          rcases List.mem_cons.mp hx with heq | hx
          · exact Or.inr ⟨x, List.mem_cons.mpr (Or.inl heq)⟩
          · rcases ih.mp ⟨x, hx⟩ with h | ⟨y, hy⟩
            · exact Or.inl h
            · exact Or.inr ⟨y, List.mem_cons_of_mem _ hy⟩
        · rintro (heq | ⟨x, hx⟩)
          · subst heq
            obtain ⟨y, hy⟩ := ih.mpr (Or.inl rfl)
            exact ⟨y, List.mem_cons_of_mem _ hy⟩
          · rcases List.mem_cons.mp hx with heq | hx
            · exact ⟨x, List.mem_cons.mpr (Or.inl heq)⟩
            · obtain ⟨y, hy⟩ := ih.mpr (Or.inr ⟨x, hx⟩)
              exact ⟨y, List.mem_cons_of_mem _ hy⟩

theorem mem_eraseKey {α : Type} {a fid : FeatureId} {x : α}
    {l : List (FeatureId × α)} :
    (a, x) ∈ eraseKey fid l ↔ (a, x) ∈ l ∧ a ≠ fid := by
  induction l with
  | nil => simp [eraseKey]
  | cons hd tl ih =>
    obtain ⟨f, b⟩ := hd
    by_cases h1 : f = fid
    · rw [eraseKey, if_pos h1]
      rw [ih]
      subst h1
      constructor
      · rintro ⟨hx, hne⟩
        exact ⟨List.mem_cons_of_mem _ hx, hne⟩
      · rintro ⟨hx, hne⟩
        rcases List.mem_cons.mp hx with heq | hx
        · exact absurd (congrArg Prod.fst heq) hne
        · exact ⟨hx, hne⟩
    · rw [eraseKey, if_neg h1]
      constructor
      · intro hx
        rcases List.mem_cons.mp hx with heq | hx
        · have ha : a = f := congrArg Prod.fst heq
          exact ⟨List.mem_cons.mpr (Or.inl heq), ha ▸ h1⟩
        · obtain ⟨hmem, hne⟩ := ih.mp hx
          exact ⟨List.mem_cons_of_mem _ hmem, hne⟩
      · rintro ⟨hx, hne⟩
        rcases List.mem_cons.mp hx with heq | hx
        · exact List.mem_cons.mpr (Or.inl heq)
        · exact List.mem_cons_of_mem _ (ih.mpr ⟨hx, hne⟩)

theorem lookupKey_upsert {α : Type} {fid : FeatureId} {g : α}
    {l : List (FeatureId × α)} :
    lookupKey fid (upsert fid g l) = some g := by
  induction l with
  | nil => simp [upsert, lookupKey]
  | cons hd tl ih =>
    obtain ⟨f, b⟩ := hd
    by_cases h1 : fid < f
    · rw [upsert, if_pos h1, lookupKey, if_pos rfl]
    · by_cases h2 : fid = f
      · rw [upsert, if_neg h1, if_pos h2, lookupKey, if_pos rfl]
      · rw [upsert, if_neg h1, if_neg h2, lookupKey,
          if_neg (fun h => h2 h.symm)]
        exact ih

theorem lookupKey_eq_none {α : Type} {fid : FeatureId} {l : List (FeatureId × α)} :
    lookupKey fid l = none ↔ ∀ x : α, (fid, x) ∉ l := by
  induction l with
  | nil => simp [lookupKey]
  | cons hd tl ih =>
    obtain ⟨f, b⟩ := hd
    by_cases h1 : f = fid
    · subst h1
      rw [lookupKey, if_pos rfl]
      constructor
      · intro h
        exact absurd h (by simp)
      · intro h
        exact absurd (List.mem_cons_self (f, b) tl) (h b)
    · rw [lookupKey, if_neg h1]
      rw [ih]
      constructor
      · intro h x hx
        rcases List.mem_cons.mp hx with heq | hx
        · exact h1 (congrArg Prod.fst heq).symm
        · exact h x hx
      · intro h x hx
        exact h x (List.mem_cons_of_mem _ hx)

theorem mem_upsert_sorted {α : Type} {fid : FeatureId} {g : α}
    {l : List (FeatureId × α)} (hs : sortedKeys l) {a : FeatureId} {x : α} :
    (a, x) ∈ upsert fid g l ↔ (a, x) = (fid, g) ∨ ((a, x) ∈ l ∧ a ≠ fid) := by
  induction l with
  | nil => simp [upsert]
  | cons hd tl ih =>
    obtain ⟨f, b⟩ := hd
    obtain ⟨hlt, hs'⟩ := List.pairwise_cons.mp hs
    by_cases h1 : fid < f
    · rw [upsert, if_pos h1]
      constructor
      · intro hx
        rcases List.mem_cons.mp hx with heq | hx
        · exact Or.inl heq
        · refine Or.inr ⟨hx, ?_⟩
          rcases List.mem_cons.mp hx with heq | hx'
          · have haf : a = f := congrArg Prod.fst heq
            intro hc
            rw [hc] at haf
            rw [haf] at h1
            exact lt_irrefl f h1
          · have hfa : f < a := hlt _ hx'
            intro hc
            rw [hc] at hfa
            exact lt_irrefl fid (lt_trans h1 hfa)
      · rintro (heq | ⟨hx, _⟩)
        · exact List.mem_cons.mpr (Or.inl heq)
        · exact List.mem_cons_of_mem _ hx
    · by_cases h2 : fid = f
      · subst h2
        rw [upsert, if_neg h1, if_pos rfl]
        constructor
        · intro hx
          rcases List.mem_cons.mp hx with heq | hx
          · exact Or.inl heq
          · have hfa : fid < a := hlt _ hx
            refine Or.inr ⟨List.mem_cons_of_mem _ hx, ?_⟩
            intro hc
            rw [hc] at hfa
            exact lt_irrefl fid hfa
        · rintro (heq | ⟨hx, hne⟩)
          · exact List.mem_cons.mpr (Or.inl heq)
          · rcases List.mem_cons.mp hx with heq | hx'
            · exact absurd (congrArg Prod.fst heq) hne
            · exact List.mem_cons_of_mem _ hx'
      · have h3 : f < fid :=
          lt_of_le_of_ne (le_of_not_lt h1) fun h => h2 h.symm
        rw [upsert, if_neg h1, if_neg h2]
        constructor
        · intro hx
          rcases List.mem_cons.mp hx with heq | hx
          · have haf : a = f := congrArg Prod.fst heq
            refine Or.inr ⟨List.mem_cons.mpr (Or.inl heq), ?_⟩
            intro hc
            rw [← haf, hc] at h3
            exact lt_irrefl fid h3
          · rcases (ih hs').mp hx with heq | ⟨hx', hne⟩
            · exact Or.inl heq
            · exact Or.inr ⟨List.mem_cons_of_mem _ hx', hne⟩
        · rintro (heq | ⟨hx, hne⟩)
          · exact List.mem_cons_of_mem _ ((ih hs').mpr (Or.inl heq))
          · rcases List.mem_cons.mp hx with heq | hx'
            · exact List.mem_cons.mpr (Or.inl heq)
            · exact List.mem_cons_of_mem _ ((ih hs').mpr (Or.inr ⟨hx', hne⟩))

theorem eraseKey_of_absent {α : Type} {fid : FeatureId} {l : List (FeatureId × α)}
    (h : ∀ p ∈ l, Prod.fst p ≠ fid) : eraseKey fid l = l := by
  induction l with
  | nil => rfl
  | cons hd tl ih =>
    obtain ⟨f, b⟩ := hd
    rw [eraseKey, if_neg (h (f, b) (List.mem_cons_self _ _))]
    rw [ih fun p hp => h p (List.mem_cons_of_mem _ hp)]

theorem upsert_of_lt {α : Type} {fid : FeatureId} {g : α} {l : List (FeatureId × α)}
    (h : ∀ p ∈ l, fid < Prod.fst p) : upsert fid g l = (fid, g) :: l := by
  cases l with
  | nil => rfl
  | cons hd tl =>
    obtain ⟨f, b⟩ := hd
    rw [upsert, if_pos (h (f, b) (List.mem_cons_self _ _))]

theorem upsert_eraseKey_restore {α : Type} {fid : FeatureId} {g : α}
    {l : List (FeatureId × α)} (hs : sortedKeys l) (hmem : (fid, g) ∈ l) :
    upsert fid g (eraseKey fid l) = l := by
  induction l with
  | nil => exact absurd hmem (List.not_mem_nil _)
  | cons hd tl ih =>
    obtain ⟨f, b⟩ := hd
    obtain ⟨hlt, hs'⟩ := List.pairwise_cons.mp hs
    by_cases h1 : f = fid
    · subst h1
      have hbg : b = g := by
        rcases List.mem_cons.mp hmem with heq | hmem'
        · exact (Prod.mk.injEq _ _ _ _ ▸ heq.symm).2
        · exact absurd (hlt _ hmem') (lt_irrefl f)
      subst hbg
      rw [eraseKey, if_pos rfl]
      rw [eraseKey_of_absent fun p hp => by
        have hlp := hlt p hp
        intro hc
        rw [hc] at hlp
        exact lt_irrefl f hlp]
      rw [upsert_of_lt fun p hp => hlt p hp]
    · rw [eraseKey, if_neg h1]
      have hmem' : (fid, g) ∈ tl := by
        rcases List.mem_cons.mp hmem with heq | hmem'
        · exact absurd (congrArg Prod.fst heq).symm h1
        · exact hmem'
      have hf_lt : f < fid := hlt _ hmem'
      have hup : upsert fid g ((f, b) :: eraseKey fid tl) =
          (f, b) :: upsert fid g (eraseKey fid tl) := by
        rw [upsert,
          if_neg (fun hc => lt_irrefl fid (lt_trans hc hf_lt)),
          if_neg (by intro hc; rw [hc] at hf_lt; exact lt_irrefl f hf_lt)]
      rw [hup, ih hs' hmem']

theorem exists_mem_map_bbox {l : GeomCache} {fid : FeatureId} :
    (∃ r, (fid, r) ∈ l.map fun fg => (fg.1, fg.2.bbox)) ↔ ∃ g, (fid, g) ∈ l := by
  constructor
  · rintro ⟨r, hr⟩
    obtain ⟨fg, hfg, heq⟩ := List.mem_map.mp hr
    obtain ⟨f, g⟩ := fg
    have hf : f = fid := (Prod.mk.injEq _ _ _ _ ▸ heq).1
    subst hf
    exact ⟨g, hfg⟩
  · rintro ⟨g, hg⟩
    exact ⟨(Geometry.bbox g), List.mem_map.mpr ⟨(fid, g), hg, rfl⟩⟩

theorem exists_mem_eraseKey {α : Type} {a fid : FeatureId} {l : List (FeatureId × α)} :
    (∃ x, (a, x) ∈ eraseKey fid l) ↔ a ≠ fid ∧ ∃ x, (a, x) ∈ l := by
  constructor
  · rintro ⟨x, hx⟩
    obtain ⟨hmem, hne⟩ := mem_eraseKey.mp hx
    exact ⟨hne, x, hmem⟩
  · rintro ⟨hne, x, hx⟩
    exact ⟨x, mem_eraseKey.mpr ⟨hx, hne⟩⟩

theorem consistent_intro_built {layer : Dataset} {loc : Locator}
    (hI : loc.hasIndex = true)
    (hA : ∀ fid : FeatureId, (∃ g, (fid, g) ∈ loc.mGeoms) ↔
      (∃ g, (fid, g) ∈ relevantFeatures layer loc.mExtent))
    (hB : ∀ fid : FeatureId, (∃ r, (fid, r) ∈ loc.mRTree) ↔
      (∃ g, (fid, g) ∈ loc.mGeoms)) : consistent layer loc := by
  rw [consistent, if_pos hI]
  exact ⟨hA, hB⟩

theorem consistent_intro_empty {layer : Dataset} {loc : Locator}
    (hI : loc.hasIndex = false) (h1 : loc.mGeoms = []) (h2 : loc.mRTree = []) :
    consistent layer loc := by
  rw [consistent, if_neg (by rw [hI]; exact Bool.false_ne_true)]
  exact ⟨h1, h2⟩

theorem consistent_elim_built {layer : Dataset} {loc : Locator}
    (hI : loc.hasIndex = true) (h : consistent layer loc) :
    (∀ fid : FeatureId, (∃ g, (fid, g) ∈ loc.mGeoms) ↔
      (∃ g, (fid, g) ∈ relevantFeatures layer loc.mExtent)) ∧
    (∀ fid : FeatureId, (∃ r, (fid, r) ∈ loc.mRTree) ↔
      (∃ g, (fid, g) ∈ loc.mGeoms)) := by
  rw [consistent, if_pos hI] at h
  exact h

theorem consistent_elim_empty {layer : Dataset} {loc : Locator}
    (hI : loc.hasIndex = false) (h : consistent layer loc) :
    loc.mGeoms = [] ∧ loc.mRTree = [] := by
  rw [consistent, if_neg (by rw [hI]; exact Bool.false_ne_true)] at h
  exact h

theorem exists_mem_relevant_upsert {layer : Dataset} (hlayer : sortedKeys layer)
    {fid a : FeatureId} {g : Geometry} {ext : Option QgsRectangle} :
    (∃ x, (a, x) ∈ relevantFeatures (upsert fid g layer) ext) ↔
      (a = fid ∧ inExtent ext g = true) ∨
      (a ≠ fid ∧ ∃ x, (a, x) ∈ relevantFeatures layer ext) := by
  simp only [relevantFeatures, List.mem_filter]
  constructor
  · rintro ⟨x, hx, hP⟩
    rcases (mem_upsert_sorted hlayer).mp hx with heq | ⟨hmem, hne⟩
    · obtain ⟨h1, h2⟩ := Prod.mk.injEq _ _ _ _ ▸ heq
      subst h1
      subst h2
      exact Or.inl ⟨rfl, hP⟩
    · exact Or.inr ⟨hne, x, hmem, hP⟩
  · rintro (⟨rfl, hP⟩ | ⟨hne, x, hmem, hP⟩)
    · exact ⟨g, (mem_upsert_sorted hlayer).mpr (Or.inl rfl), hP⟩
    · exact ⟨x, (mem_upsert_sorted hlayer).mpr (Or.inr ⟨hmem, hne⟩), hP⟩

theorem exists_mem_relevant_erase {layer : Dataset} {fid a : FeatureId}
    {ext : Option QgsRectangle} :
    (∃ x, (a, x) ∈ relevantFeatures (eraseKey fid layer) ext) ↔
      a ≠ fid ∧ ∃ x, (a, x) ∈ relevantFeatures layer ext := by
  simp only [relevantFeatures, List.mem_filter]
  constructor
  · rintro ⟨x, hx, hP⟩
    obtain ⟨hmem, hne⟩ := mem_eraseKey.mp hx
    exact ⟨hne, x, hmem, hP⟩
  · rintro ⟨hne, x, hmem, hP⟩
    exact ⟨x, mem_eraseKey.mpr ⟨hmem, hne⟩, hP⟩

theorem not_exists_relevant_of_absent {layer : Dataset} {fid : FeatureId}
    {ext : Option QgsRectangle} (h : lookupKey fid layer = none) :
    ¬ ∃ x, (fid, x) ∈ relevantFeatures layer ext := by
  rintro ⟨x, hx⟩
  obtain ⟨hmem, _⟩ := List.mem_filter.mp hx
  exact lookupKey_eq_none.mp h x hmem

theorem rebuild_consistent (layer : Dataset) (loc : Locator) (cap : Int) :
    consistent layer (rebuildIndex layer loc cap).1 := by
  rw [rebuildIndex]
  by_cases h1 : (relevantFeatures layer loc.mExtent).isEmpty
  · rw [if_pos h1]
    exact consistent_intro_empty rfl rfl rfl
  · rw [if_neg h1]
    by_cases h2 : cap ≠ -1 ∧ cap < ((relevantFeatures layer loc.mExtent).length : Int)
    · rw [if_pos h2]
      exact consistent_intro_empty rfl rfl rfl
    · rw [if_neg h2]
      exact consistent_intro_built rfl (fun fid => Iff.rfl)
        (fun fid => exists_mem_map_bbox)

/-- C5: every operation preserves the consistency invariant.  Starting from a
consistent locator over a (canonically sorted) dataset: `init` leaves it
consistent; a `featureAdded` notification for a fresh feature id leaves it
consistent with the grown dataset; a `featureDeleted` notification leaves it
consistent with the shrunk dataset; a `geometryChanged` notification leaves it
consistent with the updated dataset; and `destroyIndex` leaves it consistent
(uninitialized, hence empty). -/
theorem consistency_preserved (layer : Dataset) (loc : Locator)
    (hlayer : sortedKeys layer) (h : consistent layer loc) :
    (∀ cap : Int, consistent layer (init layer loc cap).1) ∧
    (∀ (fid : FeatureId) (g : Geometry), lookupKey fid layer = none →
      consistent (upsert fid g layer)
        (onFeatureAdded (upsert fid g layer) loc fid)) ∧
    (∀ fid : FeatureId,
      consistent (eraseKey fid layer) (onFeatureDeleted loc fid)) ∧
    (∀ (fid : FeatureId) (g : Geometry),
      consistent (upsert fid g layer)
        (onGeometryChanged (upsert fid g layer) loc fid)) ∧
    consistent layer (destroyIndex loc) := by
  cases hI : loc.hasIndex with
  | false =>
    obtain ⟨hG, hR⟩ := consistent_elim_empty hI h
    refine ⟨?_, ?_, ?_, ?_, ?_⟩
    · intro cap
      rw [init, if_neg (by rw [hI]; exact Bool.false_ne_true)]
      exact rebuild_consistent layer loc cap
    · intro fid g _
      rw [onFeatureAdded, if_neg (by rw [hI]; exact Bool.false_ne_true)]
      by_cases hEmp : loc.mIsEmptyLayer
      · rw [if_pos hEmp]
        exact rebuild_consistent (upsert fid g layer) loc (-1)
      · rw [if_neg hEmp]
        exact consistent_intro_empty hI hG hR
    · intro fid
      rw [onFeatureDeleted, if_neg (by rw [hI]; exact Bool.false_ne_true)]
      exact consistent_intro_empty hI hG hR
    · intro fid g
      rw [onGeometryChanged, if_neg (by rw [hI]; exact Bool.false_ne_true)]
      exact consistent_intro_empty hI hG hR
    · exact consistent_intro_empty rfl rfl rfl
  | true =>
    obtain ⟨hA, hB⟩ := consistent_elim_built hI h
    refine ⟨?_, ?_, ?_, ?_, ?_⟩
    · intro cap
      rw [init, if_pos hI]
      exact h
    · intro fid g hnew
      have hAdd : onFeatureAdded (upsert fid g layer) loc fid =
          if inExtent loc.mExtent g then
            { loc with
                mGeoms := upsert fid g loc.mGeoms
                mRTree := upsert fid g.bbox loc.mRTree }
          else loc := by
        rw [onFeatureAdded, if_pos hI, lookupKey_upsert]
      rw [hAdd]
      by_cases hext : inExtent loc.mExtent g
      · rw [if_pos hext]
        refine consistent_intro_built hI ?_ ?_
        · intro a
          rw [exists_mem_upsert, exists_mem_relevant_upsert hlayer]
          by_cases ha : a = fid
          · simp [ha, hext]
          · simp only [ha, false_and, false_or, ne_eq, not_false_iff, true_and]
            exact hA a
        · intro a
          rw [exists_mem_upsert, exists_mem_upsert]
          by_cases ha : a = fid
          · simp [ha]
          · simp only [ha, false_or]
            exact hB a
      · rw [if_neg hext]
        refine consistent_intro_built hI ?_ hB
        intro a
        rw [exists_mem_relevant_upsert hlayer]
        by_cases ha : a = fid
        · subst ha
          constructor
          · intro hx
            exact absurd ((hA a).mp hx) (not_exists_relevant_of_absent hnew)
          · rintro (⟨_, hP⟩ | ⟨hne, _⟩)
            · exact absurd hP hext
            · exact absurd rfl hne
        · simp only [ha, false_and, false_or, ne_eq, not_false_iff, true_and]
          exact hA a
    · intro fid
      have hDel : onFeatureDeleted loc fid =
          { loc with
              mGeoms := eraseKey fid loc.mGeoms
              mRTree := eraseKey fid loc.mRTree
              mIsEmptyLayer :=
                if (eraseKey fid loc.mGeoms).isEmpty then true
                else loc.mIsEmptyLayer } := by
        rw [onFeatureDeleted, if_pos hI]
      rw [hDel]
      refine consistent_intro_built hI ?_ ?_
      · intro a
        rw [exists_mem_eraseKey, exists_mem_relevant_erase]
        by_cases ha : a = fid
        · simp [ha]
        · simp only [ne_eq, ha, not_false_iff, true_and]
          exact hA a
      · intro a
        rw [exists_mem_eraseKey, exists_mem_eraseKey]
        by_cases ha : a = fid
        · simp [ha]
        · simp only [ne_eq, ha, not_false_iff, true_and]
          exact hB a
    · intro fid g
      have hChg : onGeometryChanged (upsert fid g layer) loc fid =
          if inExtent loc.mExtent g then
            { loc with
                mGeoms := upsert fid g (eraseKey fid loc.mGeoms)
                mRTree := upsert fid g.bbox (eraseKey fid loc.mRTree) }
          else
            { loc with
                mGeoms := eraseKey fid loc.mGeoms
                mRTree := eraseKey fid loc.mRTree } := by
        rw [onGeometryChanged, if_pos hI, lookupKey_upsert]
      rw [hChg]
      by_cases hext : inExtent loc.mExtent g
      · rw [if_pos hext]
        refine consistent_intro_built hI ?_ ?_
        · intro a
          rw [exists_mem_upsert, exists_mem_eraseKey,
            exists_mem_relevant_upsert hlayer]
          by_cases ha : a = fid
          · simp [ha, hext]
          · simp only [ha, false_or, false_and, ne_eq, not_false_iff, true_and]
            exact hA a
        · intro a
          rw [exists_mem_upsert, exists_mem_eraseKey,
            exists_mem_upsert, exists_mem_eraseKey]
          by_cases ha : a = fid
          · simp [ha]
          · simp only [ha, false_or, ne_eq, not_false_iff, true_and]
            exact hB a
      · rw [if_neg hext]
        refine consistent_intro_built hI ?_ ?_
        · intro a
          rw [exists_mem_eraseKey, exists_mem_relevant_upsert hlayer]
          by_cases ha : a = fid
          · simp [ha, hext]
          · simp only [ha, false_and, false_or, ne_eq, not_false_iff, true_and]
            exact hA a
        · intro a
          rw [exists_mem_eraseKey, exists_mem_eraseKey]
          by_cases ha : a = fid
          · simp [ha]
          · simp only [ne_eq, ha, not_false_iff, true_and]
            exact hB a
    · exact consistent_intro_empty rfl rfl rfl

theorem nearestVertex_valid_fid {loc : Locator} {p : QgsPointXY} {tolerance : ℚ}
    {filt : Match → Bool}
    (h : (nearestVertex loc p tolerance filt).mType ≠ .invalid) :
    ∃ g, ((nearestVertex loc p tolerance filt).mFid, g) ∈ loc.mGeoms := by
  cases hp : pickBest ((vertexCandidates loc.mLayer loc.mGeoms p).filter
      (withinTol tolerance filt)) with
  | none =>
    have hnv : nearestVertex loc p tolerance filt = {} := by
      rw [nearestVertex, hp]; rfl
    rw [hnv] at h
    exact absurd rfl h
  | some b =>
    have hnv : nearestVertex loc p tolerance filt = b := by
      rw [nearestVertex, hp]; rfl
    obtain ⟨⟨fg, hfg, iv, hiv, hbeq⟩, _, _⟩ := mem_vertexAccepted.mp (pickBest_mem hp)
    obtain ⟨ff, fgeom⟩ := fg
    rw [hnv]
    have hfid : b.mFid = ff := by rw [hbeq]; rfl
    rw [hfid]
    exact ⟨fgeom, hfg⟩

theorem nearestEdge_valid_fid {loc : Locator} {p : QgsPointXY} {tolerance : ℚ}
    {filt : Match → Bool}
    (h : (nearestEdge loc p tolerance filt).mType ≠ .invalid) :
    ∃ g, ((nearestEdge loc p tolerance filt).mFid, g) ∈ loc.mGeoms := by
  cases hp : pickBest ((edgeCandidates loc.mLayer loc.mGeoms p).filter
      (withinTol tolerance filt)) with
  | none =>
    have hnv : nearestEdge loc p tolerance filt = {} := by
      rw [nearestEdge, hp]; rfl
    rw [hnv] at h
    exact absurd rfl h
  | some b =>
    have hnv : nearestEdge loc p tolerance filt = b := by
      rw [nearestEdge, hp]; rfl
    obtain ⟨⟨fg, hfg, ie, hie, hbeq⟩, _, _⟩ := mem_edgeAccepted.mp (pickBest_mem hp)
    obtain ⟨ff, fgeom⟩ := fg
    rw [hnv]
    have hfid : b.mFid = ff := by rw [hbeq]; rfl
    rw [hfid]
    exact ⟨fgeom, hfg⟩

theorem nearestArea_valid_fid {loc : Locator} {p : QgsPointXY} {tolerance : ℚ}
    {filt : Match → Bool}
    (h : (nearestArea loc p tolerance filt).mType ≠ .invalid) :
    ∃ g, ((nearestArea loc p tolerance filt).mFid, g) ∈ loc.mGeoms := by
  cases hl : pointInPolygon loc p with
  | cons m rest =>
    have hna : nearestArea loc p tolerance filt = m := by rw [nearestArea, hl]
    have hm : m ∈ pointInPolygon loc p := by
      rw [hl]; exact List.mem_cons_self _ _
    obtain ⟨fg, hfg, _, _, hmeq⟩ := mem_pointInPolygon.mp hm
    obtain ⟨ff, fgeom⟩ := fg
    rw [hna, hmeq]
    exact ⟨fgeom, hfg⟩
  | nil =>
    have hna : nearestArea loc p tolerance filt =
        if tolerance = 0 then {} else nearestEdge loc p tolerance filt := by
      rw [nearestArea, hl]
    by_cases htol : tolerance = 0
    · rw [hna, if_pos htol] at h
      exact absurd rfl h
    · rw [hna, if_neg htol] at h ⊢
      exact nearestEdge_valid_fid h

theorem mem_edgesInRect_fid {loc : Locator} {r : QgsRectangle}
    {filt : Match → Bool} {m : Match} (h : m ∈ edgesInRect loc r filt) :
    ∃ g, (m.mFid, g) ∈ loc.mGeoms := by
  rw [edgesInRect] at h
  obtain ⟨fg, hfg, hmem⟩ := List.mem_flatMap.mp h
  obtain ⟨ie, _, hsome⟩ := List.mem_filterMap.mp hmem
  obtain ⟨ff, fgeom⟩ := fg
  by_cases hc : segIntersectsRect ie.2 r && filt (rectEdgeMatch loc.mLayer ff ie)
  · rw [if_pos hc] at hsome
    have hm : m = rectEdgeMatch loc.mLayer ff ie := (Option.some.inj hsome).symm
    have hfid : m.mFid = ff := by rw [hm]; rfl
    rw [hfid]
    exact ⟨fgeom, hfg⟩
  · rw [if_neg hc] at hsome
    exact absurd hsome Option.noConfusion

/-- C6: on a built, canonically sorted index containing feature `f` with
geometry `g` inside the extent, after a `featureDeleted` notification for `f`
no query — `nearestVertex`, `nearestEdge`, `nearestArea`, `edgesInRect` (both
overloads) or `pointInPolygon` — ever yields a (valid) match carrying feature
id `f`; and a subsequent `featureAdded` notification re-adding `f` with the
same geometry restores results identical to the original locator's for every
query. -/
theorem delete_readd_roundtrip (layer : Dataset) (loc : Locator)
    (f : FeatureId) (g : Geometry) (hI : loc.hasIndex = true)
    (hsG : sortedKeys loc.mGeoms) (hsR : sortedKeys loc.mRTree)
    (hmemG : (f, g) ∈ loc.mGeoms) (hmemR : (f, Geometry.bbox g) ∈ loc.mRTree)
    (hext : inExtent loc.mExtent g = true)
    (hlk : lookupKey f layer = some g) :
    ((∀ p tolerance filt,
        (nearestVertex (onFeatureDeleted loc f) p tolerance filt).mType ≠ .invalid →
        (nearestVertex (onFeatureDeleted loc f) p tolerance filt).mFid ≠ f) ∧
     (∀ p tolerance filt,
        (nearestEdge (onFeatureDeleted loc f) p tolerance filt).mType ≠ .invalid →
        (nearestEdge (onFeatureDeleted loc f) p tolerance filt).mFid ≠ f) ∧
     (∀ p tolerance filt,
        (nearestArea (onFeatureDeleted loc f) p tolerance filt).mType ≠ .invalid →
        (nearestArea (onFeatureDeleted loc f) p tolerance filt).mFid ≠ f) ∧
     (∀ r filt m, m ∈ edgesInRect (onFeatureDeleted loc f) r filt → m.mFid ≠ f) ∧
     (∀ p tolerance filt m,
        m ∈ edgesInRectTol (onFeatureDeleted loc f) p tolerance filt → m.mFid ≠ f) ∧
     (∀ p m, m ∈ pointInPolygon (onFeatureDeleted loc f) p → m.mFid ≠ f)) ∧
    ((∀ p tolerance filt,
        nearestVertex (onFeatureAdded layer (onFeatureDeleted loc f) f) p tolerance filt =
        nearestVertex loc p tolerance filt) ∧
     (∀ p tolerance filt,
        nearestEdge (onFeatureAdded layer (onFeatureDeleted loc f) f) p tolerance filt =
        nearestEdge loc p tolerance filt) ∧
     (∀ p tolerance filt,
        nearestArea (onFeatureAdded layer (onFeatureDeleted loc f) f) p tolerance filt =
        nearestArea loc p tolerance filt) ∧
     (∀ r filt,
        edgesInRect (onFeatureAdded layer (onFeatureDeleted loc f) f) r filt =
        edgesInRect loc r filt) ∧
     (∀ p tolerance filt,
        edgesInRectTol (onFeatureAdded layer (onFeatureDeleted loc f) f) p tolerance filt =
        edgesInRectTol loc p tolerance filt) ∧
     (∀ p, pointInPolygon (onFeatureAdded layer (onFeatureDeleted loc f) f) p =
        pointInPolygon loc p)) := by
  have hDel : onFeatureDeleted loc f =
      { loc with
          mGeoms := eraseKey f loc.mGeoms
          mRTree := eraseKey f loc.mRTree
          mIsEmptyLayer :=
            if (eraseKey f loc.mGeoms).isEmpty then true else loc.mIsEmptyLayer } := by
    rw [onFeatureDeleted, if_pos hI]
  have hnotf : ∀ x : Geometry, (f, x) ∉ (onFeatureDeleted loc f).mGeoms := by
    intro x hx
    rw [hDel] at hx
    exact (exists_mem_eraseKey.mp ⟨x, hx⟩).1 rfl
  have hG2 : (onFeatureAdded layer (onFeatureDeleted loc f) f).mGeoms = loc.mGeoms := by
    rw [hDel, onFeatureAdded, if_pos hI, hlk]
    dsimp only
    rw [if_pos hext]
    exact upsert_eraseKey_restore hsG hmemG
  have hR2 : (onFeatureAdded layer (onFeatureDeleted loc f) f).mRTree = loc.mRTree := by
    rw [hDel, onFeatureAdded, if_pos hI, hlk]
    dsimp only
    rw [if_pos hext]
    exact upsert_eraseKey_restore hsR hmemR
  have hL2 : (onFeatureAdded layer (onFeatureDeleted loc f) f).mLayer = loc.mLayer := by
    rw [hDel, onFeatureAdded, if_pos hI, hlk]
    dsimp only
    rw [if_pos hext]
  constructor
  · refine ⟨?_, ?_, ?_, ?_, ?_, ?_⟩
    · intro p tolerance filt hvalid hfe
      obtain ⟨g', hg'⟩ := nearestVertex_valid_fid hvalid
      rw [hfe] at hg'
      exact hnotf g' hg'
    · intro p tolerance filt hvalid hfe
      obtain ⟨g', hg'⟩ := nearestEdge_valid_fid hvalid
      rw [hfe] at hg'
      exact hnotf g' hg'
    · intro p tolerance filt hvalid hfe
      obtain ⟨g', hg'⟩ := nearestArea_valid_fid hvalid
      rw [hfe] at hg'
      exact hnotf g' hg'
    · intro r filt m hm hfe
      obtain ⟨g', hg'⟩ := mem_edgesInRect_fid hm
      rw [hfe] at hg'
      exact hnotf g' hg'
    · intro p tolerance filt m hm hfe
      rw [edgesInRectTol] at hm
      obtain ⟨g', hg'⟩ := mem_edgesInRect_fid hm
      rw [hfe] at hg'
      exact hnotf g' hg'
    · intro p m hm hfe
      obtain ⟨fg, hfg, _, _, hmeq⟩ := mem_pointInPolygon.mp hm
      obtain ⟨ff, fgeom⟩ := fg
      have : m.mFid = ff := by rw [hmeq]; rfl
      rw [hfe] at this
      rw [← this] at hfg
      exact hnotf fgeom hfg
  · have hPiP : ∀ p, pointInPolygon (onFeatureAdded layer (onFeatureDeleted loc f) f) p =
        pointInPolygon loc p := by
      intro p
      rw [pointInPolygon, pointInPolygon, hG2, hL2]
    have hNE : ∀ p tolerance filt,
        nearestEdge (onFeatureAdded layer (onFeatureDeleted loc f) f) p tolerance filt =
        nearestEdge loc p tolerance filt := by
      intro p tolerance filt
      rw [nearestEdge, nearestEdge, edgeCandidates, edgeCandidates, hG2, hL2]
    have hER : ∀ r filt,
        edgesInRect (onFeatureAdded layer (onFeatureDeleted loc f) f) r filt =
        edgesInRect loc r filt := by
      intro r filt
      rw [edgesInRect, edgesInRect, hG2, hL2]
    refine ⟨?_, hNE, ?_, hER, ?_, hPiP⟩
    · intro p tolerance filt
      rw [nearestVertex, nearestVertex, vertexCandidates, vertexCandidates, hG2, hL2]
    · intro p tolerance filt
      rw [nearestArea, nearestArea, hPiP p, hNE p tolerance filt]
    · intro p tolerance filt
      rw [edgesInRectTol, edgesInRectTol, hER]

/-- Witness for C2, the spec's capacity scenario: ten features, cap 5. -/
theorem init_capacity_witness :
    (init demoTenLayer {} 5).2 = false ∧
    (init demoTenLayer {} 5).1.hasIndex = false ∧
    (init demoTenLayer {} 5).1.mGeoms = [] ∧
    cachedGeometryCount (init demoTenLayer {} 5).1 = 0 :=
  (init_capacity demoTenLayer {} 5 rfl).1
    (by norm_num [relevantFeatures, inExtent, demoTenLayer])

/-- Witness for C7: building the demo locator succeeds, and a second `init`
is a no-op returning success again. -/
theorem init_idempotent_witness :
    init demoLayer (init demoLayer {} (-1)).1 (-1) =
      ((init demoLayer {} (-1)).1, true) ∧
    (init demoLayer {} (-1)).2 = true :=
  init_idempotent demoLayer {} (-1)
    (by norm_num [init, rebuildIndex, relevantFeatures, inExtent, demoLayer])

/-- Witness for C5: the demo locator is consistent with the demo dataset, and
`destroyIndex` keeps it consistent (now empty). -/
theorem consistency_preserved_witness :
    consistent demoLayer (destroyIndex demoLoc) :=
  (consistency_preserved demoLayer demoLoc
    (by simp [sortedKeys, demoLayer])
    (by
      rw [consistent, if_pos (show demoLoc.hasIndex = true from rfl)]
      constructor
      · intro fid
        simp [demoLoc, demoLayer, relevantFeatures, inExtent]
      · intro fid
        simp [demoLoc])).2.2.2.2

/-- Witness for C6 at the demo locator: deleting feature 1 and re-adding it
with the same geometry restores the `nearestVertex` and `pointInPolygon`
results. -/
theorem delete_readd_roundtrip_witness :
    nearestVertex (onFeatureAdded demoLayer (onFeatureDeleted demoLoc 1) 1)
        ⟨1/2, 0⟩ 1 (fun _ => true) =
      nearestVertex demoLoc ⟨1/2, 0⟩ 1 (fun _ => true) ∧
    pointInPolygon (onFeatureAdded demoLayer (onFeatureDeleted demoLoc 1) 1)
        ⟨2, 2⟩ =
      pointInPolygon demoLoc ⟨2, 2⟩ := by
  have hrt := delete_readd_roundtrip demoLayer demoLoc 1 demoLine rfl
    (by simp [sortedKeys, demoLoc])
    (by simp [sortedKeys, demoLoc])
    (by simp [demoLoc])
    (by simp [demoLoc])
    rfl
    rfl
  exact ⟨hrt.2.1 ⟨1/2, 0⟩ 1 (fun _ => true), hrt.2.2.2.2.2.2 ⟨2, 2⟩⟩

/-- Witness for C1, the spec's concrete scenario: on the demo line feature,
`nearestVertex((0.5, 0), tolerance = 0.1)` is invalid, since both vertices lie
farther than 0.1 from the query point. -/
theorem nearestVertex_invalid_iff_closest_witness :
    (nearestVertex demoLoc ⟨1/2, 0⟩ (1/10) (fun _ => true)).mType = .invalid :=
  ((nearestVertex_invalid_iff_closest demoLoc ⟨1/2, 0⟩ (1/10) (fun _ => true)).1).mpr
    (by
      intro fg hfg iv hiv hd
      simp only [demoLoc, List.mem_singleton] at hfg
      subst hfg
      simp only [demoLine, Geometry.vertices, List.flatten, List.append_nil,
        List.enum, List.enumFrom, List.mem_cons, List.not_mem_nil, or_false] at hiv
      rcases hiv with rfl | rfl <;> norm_num [sqDist] at hd)

/-- Witness for C3: the query point `(2, 2)` lies strictly inside the demo
square polygon, so `nearestArea` with tolerance 0 yields an area match with
distance 0. -/
theorem nearestArea_cases_witness :
    (nearestArea demoPolyLoc ⟨2, 2⟩ 0 (fun _ => true)).mType = .area ∧
    (nearestArea demoPolyLoc ⟨2, 2⟩ 0 (fun _ => true)).mDist = 0 :=
  (nearestArea_cases demoPolyLoc ⟨2, 2⟩ 0 (fun _ => true)).1
    (by
      refine ⟨(7, demoSquare), by simp [demoPolyLoc], rfl, ?_⟩
      norm_num [Geometry.containsPoint, pointInRing, partEdges, closingEdge,
        crossesRay, demoSquare, List.foldl])

/-- Witness for C4, the spec's concrete scenario: `nearestEdge((5, 1),
tolerance = 2)` on the demo line returns an edge match, and the squared
distance from the query point to the returned match point equals the match's
recorded (squared) distance. -/
theorem nearestEdge_point_on_segment_witness :
    sqDist ⟨5, 1⟩ (nearestEdge demoLoc ⟨5, 1⟩ 2 (fun _ => true)).mPoint =
      (nearestEdge demoLoc ⟨5, 1⟩ 2 (fun _ => true)).mDist :=
  (nearestEdge_point_on_segment demoLoc ⟨5, 1⟩ 2 (fun _ => true)
    (by
      have hcp : closestPointOnSegment ⟨5, 1⟩ ⟨0, 0⟩ ⟨10, 0⟩ = ⟨5, 0⟩ := by
        rw [closestPointOnSegment, if_neg (by norm_num [sqDist])]
        norm_num [segDot, sqDist, segParam, min_def, max_def]
      norm_num [nearestEdge, edgeCandidates, demoLoc, demoLine, Geometry.edges,
        partEdges, closingEdge, edgeMatch, withinTol, hcp, sqDist, pickBest,
        List.filter, List.enum, List.enumFrom])).2.1

end QgsPointLocator
